import Mathlib

set_option autoImplicit false

namespace Sched

/-! ### Characters and Python-style string primitives

Strings are modelled as lists of characters.  The scraper only deals with
ASCII text, so lowercasing is the ASCII letter map and whitespace is the
ASCII whitespace class recognized by Python in strip and in the regex
class backslash-s. -/

/-- Shorthand turning a Lean string literal into the list-of-characters
model used throughout this development. -/
def lit (s : String) : List Char :=
  s.data

/-- ASCII whitespace, as recognized by Python strip and regex whitespace. -/
def isWs (c : Char) : Bool :=
  c = ' ' || c = '\t' || c = '\n' || c = '\x0d' || c = '\x0b' || c = '\x0c'

/-- The ASCII uppercase-to-lowercase letter table. -/
def lowerPairs : List (Char × Char) :=
  [('A', 'a'), ('B', 'b'), ('C', 'c'), ('D', 'd'), ('E', 'e'), ('F', 'f'),
   ('G', 'g'), ('H', 'h'), ('I', 'i'), ('J', 'j'), ('K', 'k'), ('L', 'l'),
   ('M', 'm'), ('N', 'n'), ('O', 'o'), ('P', 'p'), ('Q', 'q'), ('R', 'r'),
   ('S', 's'), ('T', 't'), ('U', 'u'), ('V', 'v'), ('W', 'w'), ('X', 'x'),
   ('Y', 'y'), ('Z', 'z')]

/-- Lowercase one character (ASCII model of the Python lower method). -/
def toLowerCh (c : Char) : Char :=
  match lowerPairs.find? (fun p => p.1 = c) with
  | some p => p.2
  | none => c

/-- Lowercase a whole string, modelling the Python lower method. -/
def lowerL (s : List Char) : List Char :=
  s.map toLowerCh

/-- Remove trailing whitespace. -/
def dropTrail (s : List Char) : List Char :=
  (s.reverse.dropWhile isWs).reverse

/-- Model of the Python strip method: remove leading and trailing
whitespace. -/
def stripL (s : List Char) : List Char :=
  dropTrail (s.dropWhile isWs)

/-- Replace every maximal run of whitespace with a single underscore; the
flag records whether we are inside a whitespace run whose underscore was
already emitted.  With the flag false this is the regex substitution of
one-or-more whitespace by underscore used in normalize_job_id. -/
def collapseAux : Bool → List Char → List Char
  | _, [] => []
  | inRun, c :: cs =>
    if isWs c then
      if inRun then collapseAux true cs else '_' :: collapseAux true cs
    else
      c :: collapseAux false cs

/-- Fuel-driven worker for wordsOf; the fuel only needs to dominate the
length of the string, so the zero case is never reached in wordsOf. -/
def wordsGo : Nat → List Char → List (List Char)
  | 0, _ => []
  | _ + 1, [] => []
  | n + 1, c :: cs =>
    if isWs c then wordsGo n cs
    else (c :: cs.takeWhile (fun x => !isWs x)) :: wordsGo n (cs.dropWhile (fun x => !isWs x))

/-- Split a string into its maximal runs of non-whitespace characters. -/
def wordsOf (s : List Char) : List (List Char) :=
  wordsGo s.length s

/-- Join words with single underscores. -/
def joinWords : List (List Char) → List Char
  | [] => []
  | [w] => w
  | w :: w2 :: ws => w ++ '_' :: joinWords (w2 :: ws)

/-! ### The job record and the dedup key

JobRecord model.  Python job dictionaries are duck typed; the scheduler
reads company, title, location (with empty-string defaults), the optional
posted_date, and the source job_id.  The scraper additionally writes
role_tag, role_key and job_role_id.  A missing or empty job_id is
modelled as the empty string, matching the Python truthiness test.  The
posted_date field uses none for an absent or empty date string, some none
for a present but unparseable one, and some (some d) for a date that
parses to day number d. -/
structure Job where
  job_id : List Char
  title : List Char
  company : List Char
  location : List Char
  posted_date : Option (Option Int)
  role_tag : List Char
  role_key : List Char
  job_role_id : List Char
deriving DecidableEq

/-- Field normalization used by JobScheduler.normalize_job_id
(scheduler_service.py lines 98 to 106): strip, lowercase, then replace
every whitespace run with an underscore. -/
def normalizeField (s : List Char) : List Char :=
  collapseAux false (lowerL (stripL s))

/-- JobScheduler.normalize_job_id (scheduler_service.py lines 93 to 115):
the dedup key is the normalized company, title and location joined by
underscores, prefixed by the source job_id exactly when that id is
present and non-empty. -/
def normalize_job_id (job : Job) : List Char :=
  let company := normalizeField job.company
  let title := normalizeField job.title
  let location := normalizeField job.location
  let unique_id := company ++ '_' :: title ++ '_' :: location
  if job.job_id = [] then unique_id else job.job_id ++ '_' :: unique_id

/-! ### Recency filter -/

/-- SchedulerConfig.MAX_POST_AGE_DAYS (scheduler_service.py line 70). -/
def MAX_POST_AGE_DAYS : Int := 21

/-- JobScheduler.is_job_recent (scheduler_service.py lines 117 to 134),
at day granularity: a job with no posted date, or whose posted date fails
to parse, is treated as recent; otherwise the age in days must be at most
MAX_POST_AGE_DAYS. -/
def is_job_recent (now : Int) (job : Job) : Bool :=
  match job.posted_date with
  | none => true
  | some none => true
  | some (some posted) => decide (now - posted ≤ MAX_POST_AGE_DAYS)

/-! ### Country classification and the location allocator -/

/-- Country codes used by the allocator; OTHER is the catch-all bucket. -/
inductive CC where
  | LK
  | US
  | IN
  | GB
  | OTHER
deriving DecidableEq

/-- Substring test on the character-list model: startsWith n h is true
when n is a prefix of h. -/
def startsWith : List Char → List Char → Bool
  | [], _ => true
  | _ :: _, [] => false
  | a :: as, b :: bs => a = b && startsWith as bs

/-- Python in operator for strings: n occurs contiguously in h. -/
def substrOf (n : List Char) : List Char → Bool
  | [] => startsWith n []
  | c :: rest => startsWith n (c :: rest) || substrOf n rest

/-- The country keyword table of
JobScheduler.extract_country_from_location (scheduler_service.py lines
144 to 149), in its dictionary order. -/
def country_mapping : List (CC × List (List Char)) :=
  [(CC.LK, [lit "sri lanka", lit "colombo", lit "kandy", lit "galle", lit "jaffna"]),
   (CC.US, [lit "united states", lit "usa", lit "new york", lit "california",
            lit "texas", lit "remote", lit "us"]),
   (CC.IN, [lit "india", lit "bangalore", lit "mumbai", lit "delhi",
            lit "hyderabad", lit "pune"]),
   (CC.GB, [lit "united kingdom", lit "uk", lit "london", lit "manchester",
            lit "birmingham", lit "england"])]

/-- JobScheduler.extract_country_from_location (scheduler_service.py
lines 136 to 155): lowercase the location and return the first country
whose keyword list has a member occurring in it, else none. -/
def extract_country_from_location (location : List Char) : Option CC :=
  let location_lower := lowerL location
  (country_mapping.find? (fun p => p.2.any (fun k => substrOf k location_lower))).map
    (fun p => p.1)

/-- Country bucket assignment of filter_and_prioritize_jobs step 3
(scheduler_service.py lines 179 to 195): unmatched locations go to
OTHER. -/
def job_country (job : Job) : CC :=
  (extract_country_from_location job.location).getD CC.OTHER

/-- SchedulerConfig.TOTAL_JOBS_PER_ROLE (scheduler_service.py line 58). -/
def TOTAL_JOBS_PER_ROLE : Nat := 20

/-- One country bucket: the jobs classified into that country, in their
original order, exactly as the append loop of step 3 builds it. -/
def bucket (c : CC) (jobs : List Job) : List Job :=
  jobs.filter (fun j => job_country j = c)

/-- The fallback priority order of filter_and_prioritize_jobs step 4
(scheduler_service.py line 216). -/
def fallback_order : List CC :=
  [CC.US, CC.IN, CC.GB, CC.OTHER]

/-- One pass of the fallback fill loop (scheduler_service.py lines 218
to 225): take up to the remaining count from the country bucket, append,
and decrease the remaining count. -/
def allocStep (jobs : List Job) (acc : List Job × Nat) (c : CC) : List Job × Nat :=
  let jobs_to_add := (bucket c jobs).take acc.2
  (acc.1 ++ jobs_to_add, acc.2 - jobs_to_add.length)

/-- Steps 3 and 4 of JobScheduler.filter_and_prioritize_jobs
(scheduler_service.py lines 179 to 232): the location allocator.  Take
up to the per-role target from the primary country bucket, then fill the
remaining capacity from the fallback buckets in priority order. -/
def allocate (jobs : List Job) : List Job :=
  let lk_jobs := (bucket CC.LK jobs).take TOTAL_JOBS_PER_ROLE
  let remaining := TOTAL_JOBS_PER_ROLE - lk_jobs.length
  (fallback_order.foldl (allocStep jobs) (lk_jobs, remaining)).1

/-! ### Deduplication -/

/-- Step 1 of JobScheduler.filter_and_prioritize_jobs
(scheduler_service.py lines 165 to 172): walk the list, keep a job when
its dedup key is not in the seen set, and record the key; a duplicate is
dropped and records nothing.  Returns the retained jobs and the final
seen set. -/
def dedupAux : List (List Char) → List Job → List Job × List (List Char)
  | seen, [] => ([], seen)
  | seen, job :: jobs =>
    let job_id := normalize_job_id job
    if job_id ∈ seen then dedupAux seen jobs
    else
      let rest := dedupAux (job_id :: seen) jobs
      (job :: rest.1, rest.2)

/-- JobScheduler.filter_and_prioritize_jobs (scheduler_service.py lines
157 to 232): deduplicate against the running seen set, drop stale jobs,
then run the location allocator.  The seen set is threaded because the
source mutates self.seen_job_ids across roles within one run. -/
def filter_and_prioritize_jobs (now : Int) (seen : List (List Char))
    (jobs : List Job) : List Job × List (List Char) :=
  let dd := dedupAux seen jobs
  let recent_jobs := dd.1.filter (fun j => is_job_recent now j)
  (allocate recent_jobs, dd.2)

/-! ### Role classification and sequence-id assignment in the scraper -/

/-- The role table of ScraperService.get_role_tag_from_keywords
(scraper_service.py lines 77 to 84), in its dictionary order; each entry
is the role key with its keyword variations and its short tag. -/
def role_mapping : List ((List Char) × (List (List Char)) × (List Char)) :=
  [(lit "ai_ml_engineer",
    ([lit "ai/ml engineer", lit "machine learning engineer", lit "ai engineer",
      lit "ml engineer", lit "artificial intelligence"], lit "AIML")),
   (lit "data_analyst", ([lit "data analyst"], lit "DA")),
   (lit "data_engineer", ([lit "data engineer"], lit "DE")),
   (lit "devops_engineer", ([lit "devops engineer", lit "dev ops engineer"], lit "DO")),
   (lit "web_developer", ([lit "web developer"], lit "WD")),
   (lit "software_engineer", ([lit "software engineer"], lit "SE"))]

/-- ScraperService.get_role_tag_from_keywords (scraper_service.py lines
69 to 92): lowercase and strip the keywords, scan the roles in table
order, first role one of whose variations occurs in the keywords wins;
no match falls through to the GEN general sentinel.  Returns the pair of
role tag and role key. -/
def get_role_tag_from_keywords (keywords : List Char) : (List Char) × (List Char) :=
  let keywords_lower := stripL (lowerL keywords)
  match role_mapping.find? (fun r => r.2.1.any (fun v => substrOf v keywords_lower)) with
  | some r => (r.2.2, r.1)
  | none => (lit "GEN", lit "general")

/-- Zero-padded three-digit rendering of a counter, the 03d format used
for job_role_id (scraper_service.py line 152). -/
def pad3 (n : Nat) : List Char :=
  let ds := Nat.toDigits 10 n
  List.replicate (3 - ds.length) '0' ++ ds

/-- The tail of ScraperService.scrape_jobs (scraper_service.py lines 146
to 154): after a fetch returns its job list, stamp every job with the
role tag, the role key, and a job_role_id numbered from one in list
order.  This happens per fetch call, before the scheduler ever filters
the jobs. -/
def assign_ids (role_tag role_key : List Char) : Nat → List Job → List Job
  | _, [] => []
  | idx, job :: jobs =>
    { job with
        role_tag := role_tag,
        role_key := role_key,
        job_role_id := role_tag ++ '_' :: pad3 idx } :: assign_ids role_tag role_key (idx + 1) jobs

/-- The pipeline of one role as the scheduler drives it: each fetch result is
stamped by scrape_jobs (with the tag and key classified from the keywords of that fetch
request), the stamped lists are concatenated across fetches
(scrape_role_all_locations accumulates all_jobs), and the combined batch
goes through filter_and_prioritize_jobs. -/
def role_pipeline (now : Int) (seen : List (List Char))
    (fetches : List (((List Char) × (List Char)) × List Job)) :
    List Job × List (List Char) :=
  let all_jobs := (fetches.map (fun f => assign_ids f.1.1 f.1.2 1 f.2)).flatten
  filter_and_prioritize_jobs now seen all_jobs

/-! ### Per-role orchestration and its error handling -/

/-- One recorded failure, as appended to scraping_status errors
(scheduler_service.py lines 268 to 272). -/
structure ErrEntry where
  role : List Char
  location : List Char
  error : List Char
deriving DecidableEq

/-- The primary country of SchedulerConfig.LOCATION_PRIORITY
(scheduler_service.py line 46). -/
def primary_country : List Char :=
  lit "Sri Lanka"

/-- Outcome of one fetch: the scraped jobs, or the message of the raised
exception. -/
def FetchResult : Type :=
  Except (List Char) (List Job)

/-- The primary-location loop of JobScheduler.scrape_role_all_locations
(scheduler_service.py lines 249 to 272): a successful fetch extends the
accumulated jobs; a raising fetch appends an error entry naming the
variation and the primary country, and the loop continues. -/
def primaryStep (acc : List Job × List ErrEntry)
    (vr : (List Char) × FetchResult) : List Job × List ErrEntry :=
  match vr.2 with
  | Except.ok jobs => (acc.1 ++ jobs, acc.2)
  | Except.error e => (acc.1, acc.2 ++ [⟨vr.1, primary_country, e⟩])

/-- The fallback-location loops of JobScheduler.scrape_role_all_locations
(scheduler_service.py lines 275 to 296): a successful fetch extends the
accumulated jobs; a raising fetch is only logged — nothing is appended
to the error list — and the loop continues. -/
def fallbackStep (acc : List Job × List ErrEntry)
    (vr : (List Char) × FetchResult) : List Job × List ErrEntry :=
  match vr.2 with
  | Except.ok jobs => (acc.1 ++ jobs, acc.2)
  | Except.error _ => acc

/-- JobScheduler.scrape_role_all_locations (scheduler_service.py lines
234 to 303), with fetch outcomes supplied as data: run the primary
variation loop, then the variation loop of every fallback location, then hand
the accumulated batch to filter_and_prioritize_jobs.  Returns the
selected jobs, the error list, and the updated seen set. -/
def scrape_role_all_locations (now : Int) (seen : List (List Char))
    (primary_results : List ((List Char) × FetchResult))
    (fallback_results : List ((List Char) × List ((List Char) × FetchResult)))
    (errors : List ErrEntry) :
    List Job × List ErrEntry × List (List Char) :=
  let after_primary := primary_results.foldl primaryStep ([], errors)
  let after_fallback :=
    fallback_results.foldl (fun acc fb => fb.2.foldl fallbackStep acc) after_primary
  let fp := filter_and_prioritize_jobs now seen after_fallback.1
  (fp.1, after_fallback.2, fp.2)

/-! ### Run-level orchestration -/

/-- The scraping_status dictionary of JobScheduler
(scheduler_service.py lines 81 to 90 and 307 to 317). -/
structure ScrapingStatus where
  is_scraping : Bool
  current_role : Option (List Char)
  progress : Nat
  total_jobs_scraped : Nat
  jobs_by_role : List ((List Char) × Nat)
  jobs_by_country : List (CC × Nat)
  errors : List ErrEntry
deriving DecidableEq

/-- Increment the per-country counter, creating it at one when absent,
as the defaultdict increment on scheduler_service.py line 338 does. -/
def bump_country : List (CC × Nat) → CC → List (CC × Nat)
  | [], c => [(c, 1)]
  | (c0, n) :: rest, c =>
    if c0 = c then (c0, n + 1) :: rest else (c0, n) :: bump_country rest c

/-- The per-job country tally of scrape_all_roles (scheduler_service.py
lines 334 to 338): only jobs whose location classifies to a country are
counted. -/
def count_countries (counts : List (CC × Nat)) (jobs : List Job) : List (CC × Nat) :=
  jobs.foldl
    (fun acc j =>
      match extract_country_from_location j.location with
      | some c => bump_country acc c
      | none => acc)
    counts

/-- The role loop of scrape_all_roles (scheduler_service.py lines 324 to
346), with each role outcome supplied as data: an ok outcome carries the
jobs scrape_role_all_locations returned for the role, an error outcome
models an exception raised while processing that role, which aborts the
loop with the status as mutated so far.  Returns the status, the
accumulated jobs, and the uncaught exception when one was raised. -/
def roles_loop (total : Nat) :
    Nat → ScrapingStatus → List Job →
      List ((List Char) × Except (List Char) (List Job)) →
      ScrapingStatus × List Job × Option (List Char)
  | _, st, acc, [] => (st, acc, none)
  | idx, st, acc, (role_key, res) :: rest =>
    let st1 := { st with current_role := some role_key, progress := idx * 100 / total }
    match res with
    | Except.error e => (st1, acc, some e)
    | Except.ok role_jobs =>
      let st2 :=
        { st1 with
            jobs_by_role := st1.jobs_by_role ++ [(role_key, role_jobs.length)],
            jobs_by_country := count_countries st1.jobs_by_country role_jobs,
            total_jobs_scraped := acc.length + role_jobs.length }
      roles_loop total (idx + 1) st2 (acc ++ role_jobs) rest

/-- JobScheduler.scrape_all_roles (scheduler_service.py lines 305 to
387): reset the status, run the role loop inside try, produce a
completed summary on success and a failed summary when an exception was
caught, and in the finally clause set is_scraping to false and progress
to one hundred on whatever status the body left behind.  The returned
pair is the summary status string together with the final
scraping_status. -/
def scrape_all_roles
    (roles : List ((List Char) × Except (List Char) (List Job))) :
    (List Char) × ScrapingStatus :=
  let st0 : ScrapingStatus :=
    { is_scraping := true, current_role := none, progress := 0,
      total_jobs_scraped := 0, jobs_by_role := [], jobs_by_country := [],
      errors := [] }
  let r := roles_loop roles.length 0 st0 [] roles
  let summary_status :=
    match r.2.2 with
    | none => lit "completed"
    | some _ => lit "failed"
  (summary_status, { r.1 with is_scraping := false, progress := 100 })

/-- Outcome kinds of the manual trigger. -/
inductive RunNowStatus where
  | started
  | error_already
deriving DecidableEq

/-- Result of the manual trigger: the reported status and whether a
background scraping run was launched. -/
structure RunNowResult where
  status : RunNowStatus
  starts_run : Bool
deriving DecidableEq

/-- JobScheduler.run_now (scheduler_service.py lines 470 to 488): when a
scrape is in progress, report the already-running error and launch
nothing; otherwise launch the run in the background and immediately
report it as started. -/
def run_now (is_scraping : Bool) : RunNowResult :=
  if is_scraping then
    { status := RunNowStatus.error_already, starts_run := false }
  else
    { status := RunNowStatus.started, starts_run := true }

/-!
Verification development for the LinkedIn job scrape scheduler.

The definitions below are a shallow embedding of the ingestion pipeline of
the repository: the dedup-key normalization and recency filter of
JobScheduler (api/services/scheduler_service.py), the location allocator
of JobScheduler.filter_and_prioritize_jobs, the role classifier and
sequence-id assignment of ScraperService (api/services/scraper_service.py),
and the run orchestration (scrape_role_all_locations, scrape_all_roles,
run_now).  Python strings are modelled as lists of characters; datetimes
are modelled at day granularity as integers, matching the date-only
granularity the pipeline relies on.
-/

/-! ### Generic list helpers used by the string-normalization proofs -/

/-! ### Concrete inputs used by individual checks -/

/-- A minimal job with a given location and a numbered title. -/
def mkLoc (loc : List Char) (i : Nat) : Job :=
  { job_id := [], title := pad3 i, company := [], location := loc,
    posted_date := none, role_tag := [], role_key := [], job_role_id := [] }

/-- Five primary-country jobs located in Colombo. -/
def c2_lk : List Job :=
  (List.range 5).map (mkLoc (lit "colombo"))

/-- Ten United States jobs. -/
def c2_us : List Job :=
  (List.range 10).map (mkLoc (lit "usa"))

/-- Ten India jobs. -/
def c2_in : List Job :=
  (List.range 10).map (mkLoc (lit "india"))

/-- Ten United Kingdom jobs. -/
def c2_gb : List Job :=
  (List.range 10).map (mkLoc (lit "london"))

/-- The allocator input with five LK, ten US, ten IN and ten GB jobs. -/
def c2_jobs : List Job :=
  c2_lk ++ c2_us ++ c2_in ++ c2_gb

/-- Twenty-five primary-country jobs. -/
def lk25 : List Job :=
  (List.range 25).map (mkLoc (lit "colombo"))

/-- A job posted on day 0, stale when now is day 100. -/
def c1_job_old : Job :=
  { job_id := [], title := lit "alpha", company := lit "acme", location := lit "colombo",
    posted_date := some (some 0), role_tag := [], role_key := [], job_role_id := [] }

/-- A job posted on day 95, fresh when now is day 100. -/
def c1_job_new : Job :=
  { job_id := [], title := lit "beta", company := lit "acme", location := lit "colombo",
    posted_date := some (some 95), role_tag := [], role_key := [], job_role_id := [] }

/-- A fresh Colombo job fetched by the variation that follows the raising
one at the fallback location. -/
def c3_job : Job :=
  mkLoc (lit "colombo") 0

/-- Primary-location outcomes: one variation, fetch succeeds with no
jobs. -/
def c3_primary : List ((List Char) × FetchResult) :=
  [(lit "data engineer", Except.ok [])]

/-- Fallback-location outcomes: at the United States location the first
variation raises and the second succeeds. -/
def c3_fallback : List ((List Char) × List ((List Char) × FetchResult)) :=
  [(lit "United States",
    [(lit "data engineer", Except.error (lit "boom")),
     (lit "big data engineer", Except.ok [c3_job])])]

/-- Primary-location outcomes where the only variation raises. -/
def c3_primary_err : List ((List Char) × FetchResult) :=
  [(lit "data engineer", Except.error (lit "boom"))]

/-- First witness job for the dedup-key insensitivity: mixed case and
repeated whitespace in every normalized field. -/
def c7_job_a : Job :=
  { job_id := lit "X1", title := lit " Data  Engineer ", company := lit "  Google   Inc",
    location := lit "Colombo,  Sri Lanka", posted_date := none,
    role_tag := [], role_key := [], job_role_id := [] }

/-- Second witness job: the same fields up to letter case and extra
whitespace, with the same source id. -/
def c7_job_b : Job :=
  { job_id := lit "X1", title := lit "DATA ENGINEER", company := lit "google inc ",
    location := lit "colombo, sri lanka", posted_date := some (some 3),
    role_tag := [], role_key := [], job_role_id := [] }

theorem dropWhile_all {α : Type} (p : α → Bool) (a : List α)
    (h : ∀ x ∈ a, p x = true) : a.dropWhile p = [] :=
  List.dropWhile_eq_nil_iff.mpr h

theorem dropWhile_not_nil {α : Type} (p : α → Bool) (a : List α)
    (h : ∃ x ∈ a, p x = false) : a.dropWhile p ≠ [] := by
  intro hnil
  rcases h with ⟨x, hm, hx⟩
  have := List.dropWhile_eq_nil_iff.mp hnil x hm
  rw [hx] at this
  exact absurd this (by simp)

theorem dropWhile_append_all {α : Type} (p : α → Bool) :
    ∀ (a b : List α), (∀ x ∈ a, p x = true) →
      (a ++ b).dropWhile p = b.dropWhile p
  | [], _, _ => rfl
  | x :: xs, b, h => by
    have hx : p x = true := h x (List.mem_cons_self x xs)
    simp only [List.cons_append, List.dropWhile, hx]
    exact dropWhile_append_all p xs b (fun y hy => h y (List.mem_cons_of_mem x hy))

theorem dropWhile_none {α : Type} (p : α → Bool) :
    ∀ (a : List α), (∀ x ∈ a, p x = false) → a.dropWhile p = a
  | [], _ => rfl
  | x :: xs, h => by
    have hx : p x = false := h x (List.mem_cons_self x xs)
    simp [List.dropWhile, hx]

theorem dropWhile_append_stop {α : Type} (p : α → Bool) :
    ∀ (a b : List α), a.dropWhile p ≠ [] →
      (a ++ b).dropWhile p = a.dropWhile p ++ b
  | [], _, h => absurd rfl h
  | x :: xs, b, h => by
    by_cases hx : p x = true
    · simp only [List.cons_append, List.dropWhile, hx]
      simp only [List.dropWhile, hx] at h
      exact dropWhile_append_stop p xs b h
    · have hx' : p x = false := by
        cases hpx : p x
        · rfl
        · exact absurd hpx hx
      simp [List.dropWhile, hx']

theorem len_dropWhile_le {α : Type} (p : α → Bool) :
    ∀ (a : List α), (a.dropWhile p).length ≤ a.length
  | [] => Nat.le_refl 0
  | x :: xs => by
    by_cases hx : p x = true
    · simp only [List.dropWhile, hx]
      exact Nat.le_trans (len_dropWhile_le p xs) (Nat.le_succ _)
    · have hx' : p x = false := by
        cases hpx : p x
        · rfl
        · exact absurd hpx hx
      simp [List.dropWhile, hx']

theorem wordsGo_fuel :
    ∀ (n : Nat) (m : Nat) (s : List Char), s.length ≤ n → s.length ≤ m →
      wordsGo n s = wordsGo m s
  | 0, m, s, hn, _ => by
    have hs : s = [] := List.eq_nil_of_length_eq_zero (Nat.le_zero.mp hn)
    subst hs
    cases m <;> rfl
  | _ + 1, 0, s, _, hm => by
    have hs : s = [] := List.eq_nil_of_length_eq_zero (Nat.le_zero.mp hm)
    subst hs
    rfl
  | _ + 1, _ + 1, [], _, _ => rfl
  | n + 1, m + 1, c :: cs, hn, hm => by
    have hn' : cs.length ≤ n := Nat.le_of_succ_le_succ hn
    have hm' : cs.length ≤ m := Nat.le_of_succ_le_succ hm
    by_cases hc : isWs c = true
    · simp only [wordsGo, hc, if_true]
      exact wordsGo_fuel n m cs hn' hm'
    · have hc' : isWs c = false := by
        cases hpc : isWs c
        · rfl
        · exact absurd hpc hc
      have hd := len_dropWhile_le (fun x => !isWs x) cs
      simp only [wordsGo, hc', Bool.false_eq_true, if_false]
      rw [wordsGo_fuel n m (cs.dropWhile (fun x => !isWs x))
        (Nat.le_trans hd hn') (Nat.le_trans hd hm')]

theorem wordsOf_nil : wordsOf [] = [] := rfl

theorem wordsOf_cons_ws {c : Char} (cs : List Char) (hc : isWs c = true) :
    wordsOf (c :: cs) = wordsOf cs := by
  simp only [wordsOf, List.length_cons, wordsGo, hc, if_true]

theorem wordsOf_cons_notws {c : Char} (cs : List Char) (hc : isWs c = false) :
    wordsOf (c :: cs) =
      (c :: cs.takeWhile (fun x => !isWs x)) :: wordsOf (cs.dropWhile (fun x => !isWs x)) := by
  simp only [wordsOf, List.length_cons, wordsGo, hc, Bool.false_eq_true, if_false]
  rw [wordsGo_fuel cs.length (cs.dropWhile (fun x => !isWs x)).length
    (cs.dropWhile (fun x => !isWs x)) (len_dropWhile_le _ cs) (Nat.le_refl _)]

/-! ### Facts about dropTrail, collapseAux and wordsOf -/

theorem dropWhile_head_false {α : Type} (p : α → Bool) :
    ∀ (l : List α) (x : α) (xs : List α), l.dropWhile p = x :: xs → p x = false
  | [], x, xs, h => by exact absurd h (by simp)
  | c :: cs, x, xs, h => by
    by_cases hc : p c = true
    · rw [List.dropWhile_cons_of_pos hc] at h
      exact dropWhile_head_false p cs x xs h
    · have hc' : p c = false := by
        cases hpc : p c
        · rfl
        · exact absurd hpc hc
      rw [List.dropWhile_cons_of_neg (by simp [hc'])] at h
      injection h with h1 h2
      rw [← h1]
      exact hc'

theorem dropTrail_nil : dropTrail [] = [] := rfl

theorem dropTrail_of_all_ws (l : List Char) (h : ∀ x ∈ l, isWs x = true) :
    dropTrail l = [] := by
  unfold dropTrail
  rw [dropWhile_all isWs l.reverse (fun x hx => h x (List.mem_reverse.mp hx))]
  rfl

theorem dropTrail_of_all_notws (l : List Char) (h : ∀ x ∈ l, isWs x = false) :
    dropTrail l = l := by
  unfold dropTrail
  rw [dropWhile_none isWs l.reverse (fun x hx => h x (List.mem_reverse.mp hx))]
  exact List.reverse_reverse l

theorem dropTrail_append_allws (a b : List Char) (h : ∀ x ∈ b, isWs x = true) :
    dropTrail (a ++ b) = dropTrail a := by
  unfold dropTrail
  rw [List.reverse_append]
  rw [dropWhile_append_all isWs b.reverse a.reverse
    (fun x hx => h x (List.mem_reverse.mp hx))]

theorem dropTrail_append_has (a b : List Char)
    (h : ∃ x ∈ b, isWs x = false) : dropTrail (a ++ b) = a ++ dropTrail b := by
  unfold dropTrail
  rw [List.reverse_append]
  rcases h with ⟨x, hm, hx⟩
  rw [dropWhile_append_stop isWs b.reverse a.reverse
    (dropWhile_not_nil isWs b.reverse ⟨x, List.mem_reverse.mpr hm, hx⟩)]
  rw [List.reverse_append, List.reverse_reverse]

theorem dropTrail_cons_notws (c : Char) (l : List Char) (hc : isWs c = false) :
    dropTrail (c :: l) = c :: dropTrail l := by
  by_cases h : ∀ x ∈ l, isWs x = true
  · rw [show c :: l = [c] ++ l from rfl, dropTrail_append_allws [c] l h,
      dropTrail_of_all_ws l h]
    exact dropTrail_of_all_notws [c] (by intro x hx; simp at hx; subst hx; exact hc)
  · have h' : ∃ x ∈ l, isWs x = false := by
      push_neg at h
      rcases h with ⟨x, hm, hx⟩
      exact ⟨x, hm, by cases hpx : isWs x; rfl; exact absurd hpx hx⟩
    rw [show c :: l = [c] ++ l from rfl, dropTrail_append_has [c] l h']
    rfl

theorem collapseAux_of_all_notws (b : Bool) (l : List Char)
    (h : ∀ x ∈ l, isWs x = false) : collapseAux b l = l := by
  induction l generalizing b with
  | nil => rfl
  | cons c cs ih =>
    have hc : isWs c = false := h c (List.mem_cons_self c cs)
    simp only [collapseAux, hc, Bool.false_eq_true, if_false]
    rw [ih false (fun x hx => h x (List.mem_cons_of_mem c hx))]

theorem collapseAux_append_notws (t r : List Char)
    (h : ∀ x ∈ t, isWs x = false) :
    collapseAux false (t ++ r) = t ++ collapseAux false r := by
  induction t with
  | nil => rfl
  | cons c cs ih =>
    have hc : isWs c = false := h c (List.mem_cons_self c cs)
    simp only [List.cons_append, collapseAux, hc, Bool.false_eq_true, if_false]
    exact congrArg (c :: ·) (ih (fun x hx => h x (List.mem_cons_of_mem c hx)))

theorem collapseAux_true_dropWhile (l : List Char) :
    collapseAux true l = collapseAux false (l.dropWhile isWs) := by
  induction l with
  | nil => rfl
  | cons c cs ih =>
    by_cases hc : isWs c = true
    · simp only [collapseAux, hc, if_true, List.dropWhile, ih]
    · have hc' : isWs c = false := by
        cases hpc : isWs c
        · rfl
        · exact absurd hpc hc
      simp only [collapseAux, hc', Bool.false_eq_true, if_false, List.dropWhile]

theorem wordsOf_eq_nil_iff (l : List Char) :
    wordsOf l = [] ↔ ∀ x ∈ l, isWs x = true := by
  induction l with
  | nil => simp [wordsOf_nil]
  | cons c cs ih =>
    by_cases hc : isWs c = true
    · rw [wordsOf_cons_ws cs hc, ih]
      constructor
      · intro h x hx
        rcases List.mem_cons.mp hx with h1 | h1
        · subst h1; exact hc
        · exact h x h1
      · intro h x hx
        exact h x (List.mem_cons_of_mem c hx)
    · have hc' : isWs c = false := by
        cases hpc : isWs c
        · rfl
        · exact absurd hpc hc
      rw [wordsOf_cons_notws cs hc']
      constructor
      · intro h
        exact absurd h (List.cons_ne_nil _ _)
      · intro h
        have := h c (List.mem_cons_self c cs)
        rw [hc'] at this
        exact absurd this (by simp)

theorem wordsOf_has_notws (l : List Char) (w : List Char) (ws : List (List Char))
    (h : wordsOf l = w :: ws) : ∃ x ∈ l, isWs x = false := by
  by_contra hall
  push_neg at hall
  have hall' : ∀ x ∈ l, isWs x = true := by
    intro x hx
    cases hpx : isWs x
    · exact absurd hpx (hall x hx)
    · rfl
  rw [(wordsOf_eq_nil_iff l).mpr hall'] at h
  exact absurd h (by simp)

/-- Stripping leading whitespace commutes with stripping trailing
whitespace. -/
theorem dropWhile_dropTrail (l : List Char) :
    (dropTrail l).dropWhile isWs = dropTrail (l.dropWhile isWs) := by
  by_cases hall : ∀ x ∈ l, isWs x = true
  · rw [dropTrail_of_all_ws l hall, dropWhile_all isWs l hall, dropTrail_nil]
    rfl
  · have hy : l.dropWhile isWs ≠ [] := by
      intro hnil
      exact hall (List.dropWhile_eq_nil_iff.mp hnil)
    rcases hys : l.dropWhile isWs with _ | ⟨h0, t0⟩
    · exact absurd hys hy
    · have hh0 : isWs h0 = false := dropWhile_head_false isWs l h0 t0 hys
      have hsplit : l = l.takeWhile isWs ++ (h0 :: t0) := by
        rw [← hys, List.takeWhile_append_dropWhile]
      have htk : ∀ x ∈ l.takeWhile isWs, isWs x = true := by
        intro x hx
        exact List.mem_takeWhile_imp hx
      rw [hsplit, dropTrail_append_has (l.takeWhile isWs) (h0 :: t0)
        ⟨h0, List.mem_cons_self h0 t0, hh0⟩]
      rw [dropWhile_append_all isWs (l.takeWhile isWs) _ htk]
      rw [dropTrail_cons_notws h0 t0 hh0]
      rw [List.dropWhile_cons_of_neg (by simp [hh0])]

/-- Central canonicalization fact: stripping then collapsing whitespace
runs to underscores produces exactly the words of the string joined by
single underscores.  This shows the normalized field depends only on the
word sequence of the input. -/
theorem collapse_strip_eq_joinWords (l : List Char) :
    collapseAux false (stripL l) = joinWords (wordsOf l) := by
  suffices h : ∀ (n : Nat) (s : List Char), s.length ≤ n →
      collapseAux false (stripL s) = joinWords (wordsOf s) from
    h l.length l (Nat.le_refl _)
  intro n
  induction n with
  | zero =>
    intro s hs
    have : s = [] := List.eq_nil_of_length_eq_zero (Nat.le_zero.mp hs)
    subst this
    rfl
  | succ n ih =>
    intro s hs
    cases s with
    | nil => rfl
    | cons c cs =>
      have hl' : cs.length ≤ n := Nat.le_of_succ_le_succ hs
      by_cases hcb : isWs c = true
      · have h1 : stripL (c :: cs) = stripL cs := by
          unfold stripL
          rw [List.dropWhile_cons_of_pos hcb]
        rw [h1, wordsOf_cons_ws cs hcb]
        exact ih cs hl'
      · have hc : isWs c = false := by
          cases hpc : isWs c
          · rfl
          · exact absurd hpc hcb
        obtain ⟨t, ht⟩ : ∃ t, cs.takeWhile (fun x => !isWs x) = t := ⟨_, rfl⟩
        obtain ⟨d, hdq⟩ : ∃ d, cs.dropWhile (fun x => !isWs x) = d := ⟨_, rfl⟩
        have hcs : t ++ d = cs := by
          rw [← ht, ← hdq, List.takeWhile_append_dropWhile]
        have hts : ∀ x ∈ t, isWs x = false := by
          intro x hx
          rw [← ht] at hx
          have := List.mem_takeWhile_imp hx
          simpa using this
        have hstrip : stripL (c :: cs) = c :: dropTrail cs := by
          unfold stripL
          rw [List.dropWhile_cons_of_neg (by simp [hc])]
          exact dropTrail_cons_notws c cs hc
        have hwords : wordsOf (c :: cs) = (c :: t) :: wordsOf d := by
          rw [wordsOf_cons_notws cs hc, ht, hdq]
        rw [hstrip, hwords]
        have hcol : collapseAux false (c :: dropTrail cs) =
            c :: collapseAux false (dropTrail cs) := by
          simp [collapseAux, hc]
        rw [hcol]
        cases d with
        | nil =>
          have hcst : cs = t := by rw [← hcs, List.append_nil]
          rw [hcst, dropTrail_of_all_notws t hts, collapseAux_of_all_notws false t hts]
          rfl
        | cons e d' =>
          have he : isWs e = true := by
            have h2 := dropWhile_head_false (fun x => !isWs x) cs e d' hdq
            simpa using h2
          cases hw2 : wordsOf d' with
          | nil =>
            have hallw : ∀ x ∈ e :: d', isWs x = true := by
              intro x hx
              rcases List.mem_cons.mp hx with h1 | h1
              · subst h1; exact he
              · exact (wordsOf_eq_nil_iff d').mp hw2 x h1
            have h1 : dropTrail cs = t := by
              rw [← hcs, dropTrail_append_allws t (e :: d') hallw]
              exact dropTrail_of_all_notws t hts
            rw [h1, collapseAux_of_all_notws false t hts, wordsOf_cons_ws d' he, hw2]
            rfl
          | cons w ws2 =>
            have hhas : ∃ x ∈ d', isWs x = false := wordsOf_has_notws d' w ws2 hw2
            have hhas2 : ∃ x ∈ e :: d', isWs x = false := by
              rcases hhas with ⟨x, hm, hx⟩
              exact ⟨x, List.mem_cons_of_mem e hm, hx⟩
            have h1 : dropTrail cs = t ++ e :: dropTrail d' := by
              rw [← hcs, dropTrail_append_has t (e :: d') hhas2]
              have h2 : dropTrail (e :: d') = e :: dropTrail d' := by
                have h3 := dropTrail_append_has [e] d' hhas
                simpa using h3
              rw [h2]
            have hd'len : d'.length ≤ n := by
              have : cs.length = t.length + (d'.length + 1) := by
                rw [← hcs]
                simp [List.length_append]
              omega
            rw [h1, collapseAux_append_notws t (e :: dropTrail d') hts]
            have h4 : collapseAux false (e :: dropTrail d') =
                '_' :: collapseAux true (dropTrail d') := by
              simp [collapseAux, he]
            rw [h4, collapseAux_true_dropWhile (dropTrail d'), dropWhile_dropTrail d']
            have h5 : collapseAux false (stripL d') = joinWords (wordsOf d') :=
              ih d' hd'len
            unfold stripL at h5
            rw [h5, hw2, wordsOf_cons_ws d' he, hw2]
            simp [joinWords]

/-! ### Lowercasing commutes with the whitespace operations -/

theorem isWs_toLowerCh (c : Char) : isWs (toLowerCh c) = isWs c := by
  unfold toLowerCh
  cases hf : lowerPairs.find? (fun p => p.1 = c) with
  | none => rfl
  | some p =>
    have hmem := List.mem_of_find?_eq_some hf
    have hpc : p.1 = c := by
      have h1 := List.find?_some hf
      simpa using h1
    subst hpc
    fin_cases hmem <;> rfl

theorem dropWhile_lowerL (s : List Char) :
    (lowerL s).dropWhile isWs = lowerL (s.dropWhile isWs) := by
  induction s with
  | nil => rfl
  | cons c cs ih =>
    show (toLowerCh c :: lowerL cs).dropWhile isWs = _
    by_cases hc : isWs c = true
    · rw [List.dropWhile_cons_of_pos (by rw [isWs_toLowerCh]; exact hc)]
      rw [List.dropWhile_cons_of_pos hc]
      exact ih
    · have hc' : isWs c = false := by
        cases hpc : isWs c
        · rfl
        · exact absurd hpc hc
      rw [List.dropWhile_cons_of_neg (by rw [isWs_toLowerCh]; simp [hc'])]
      rw [List.dropWhile_cons_of_neg (by simp [hc'])]
      rfl

theorem reverse_lowerL (s : List Char) :
    (lowerL s).reverse = lowerL s.reverse := by
  unfold lowerL
  rw [List.map_reverse]

theorem dropTrail_lowerL (s : List Char) :
    dropTrail (lowerL s) = lowerL (dropTrail s) := by
  unfold dropTrail
  rw [reverse_lowerL, dropWhile_lowerL, reverse_lowerL]

theorem stripL_lowerL (s : List Char) :
    stripL (lowerL s) = lowerL (stripL s) := by
  unfold stripL
  rw [dropWhile_lowerL, dropTrail_lowerL]

/-- The normalized field depends only on the lowercased word sequence of
the input. -/
theorem normalizeField_words (s : List Char) :
    normalizeField s = joinWords (wordsOf (lowerL s)) := by
  unfold normalizeField
  rw [← stripL_lowerL, collapse_strip_eq_joinWords]

/-! ### Properties of the deduplication pass -/

theorem dedupAux_seen_case (seen : List (List Char)) (x : Job) (xs : List Job)
    (hk : normalize_job_id x ∈ seen) :
    dedupAux seen (x :: xs) = dedupAux seen xs := by
  simp [dedupAux, hk]

theorem dedupAux_new_case (seen : List (List Char)) (x : Job) (xs : List Job)
    (hk : normalize_job_id x ∉ seen) :
    dedupAux seen (x :: xs) =
      ((x :: (dedupAux (normalize_job_id x :: seen) xs).1),
       (dedupAux (normalize_job_id x :: seen) xs).2) := by
  simp [dedupAux, hk]

theorem dedupAux_mem :
    ∀ (seen : List (List Char)) (l : List Job) (j : Job),
      j ∈ (dedupAux seen l).1 → j ∈ l
  | _, [], j, h => absurd h (List.not_mem_nil j)
  | seen, x :: xs, j, h => by
    by_cases hk : normalize_job_id x ∈ seen
    · rw [dedupAux_seen_case seen x xs hk] at h
      exact List.mem_cons_of_mem x (dedupAux_mem seen xs j h)
    · rw [dedupAux_new_case seen x xs hk] at h
      rcases List.mem_cons.mp h with h1 | h1
      · subst h1
        exact List.mem_cons_self j xs
      · exact List.mem_cons_of_mem x (dedupAux_mem _ xs j h1)

theorem dedupAux_fresh :
    ∀ (seen : List (List Char)) (l : List Job) (j : Job),
      j ∈ (dedupAux seen l).1 → normalize_job_id j ∉ seen
  | _, [], j, h => absurd h (List.not_mem_nil j)
  | seen, x :: xs, j, h => by
    by_cases hk : normalize_job_id x ∈ seen
    · rw [dedupAux_seen_case seen x xs hk] at h
      exact dedupAux_fresh seen xs j h
    · rw [dedupAux_new_case seen x xs hk] at h
      rcases List.mem_cons.mp h with h1 | h1
      · subst h1
        exact hk
      · have h2 := dedupAux_fresh (normalize_job_id x :: seen) xs j h1
        intro hmem
        exact h2 (List.mem_cons_of_mem _ hmem)

theorem dedupAux_nodup_keys :
    ∀ (seen : List (List Char)) (l : List Job),
      ((dedupAux seen l).1.map normalize_job_id).Nodup
  | _, [] => List.nodup_nil
  | seen, x :: xs => by
    by_cases hk : normalize_job_id x ∈ seen
    · rw [dedupAux_seen_case seen x xs hk]
      exact dedupAux_nodup_keys seen xs
    · rw [dedupAux_new_case seen x xs hk]
      refine List.nodup_cons.mpr ⟨?_, dedupAux_nodup_keys (normalize_job_id x :: seen) xs⟩
      intro hmem
      rcases List.mem_map.mp hmem with ⟨j, hj, hkey⟩
      have h2 := dedupAux_fresh (normalize_job_id x :: seen) xs j hj
      rw [hkey] at h2
      exact h2 (List.mem_cons_self _ _)

theorem dedupAux_of_nodup :
    ∀ (l : List Job) (seen : List (List Char)),
      (l.map normalize_job_id).Nodup →
      (∀ j ∈ l, normalize_job_id j ∉ seen) →
      (dedupAux seen l).1 = l
  | [], _, _, _ => rfl
  | x :: xs, seen, hnd, hfresh => by
    have hk : normalize_job_id x ∉ seen := hfresh x (List.mem_cons_self x xs)
    rw [dedupAux_new_case seen x xs hk]
    have hnd' : (normalize_job_id x :: xs.map normalize_job_id).Nodup := by
      rw [List.map_cons] at hnd
      exact hnd
    have hnd2 := List.nodup_cons.mp hnd'
    have hrest : (dedupAux (normalize_job_id x :: seen) xs).1 = xs := by
      refine dedupAux_of_nodup xs (normalize_job_id x :: seen) hnd2.2 ?_
      intro j hj
      intro hmem
      rcases List.mem_cons.mp hmem with h1 | h1
      · exact hnd2.1 (h1 ▸ List.mem_map.mpr ⟨j, hj, rfl⟩)
      · exact hfresh j (List.mem_cons_of_mem x hj) h1
    rw [hrest]

/-! ### Properties of the location allocator -/

theorem alloc_foldl_sum (jobs : List Job) :
    ∀ (cs : List CC) (acc : List Job × Nat),
      ((cs.foldl (allocStep jobs) acc).1.length + (cs.foldl (allocStep jobs) acc).2)
        = acc.1.length + acc.2
  | [], _ => rfl
  | c :: cs, acc => by
    rw [List.foldl_cons, alloc_foldl_sum jobs cs (allocStep jobs acc c)]
    show (acc.1 ++ (bucket c jobs).take acc.2).length
        + (acc.2 - ((bucket c jobs).take acc.2).length) = acc.1.length + acc.2
    have htk := List.length_take_le acc.2 (bucket c jobs)
    rw [List.length_append]
    omega

theorem allocate_length_le (jobs : List Job) :
    (allocate jobs).length ≤ TOTAL_JOBS_PER_ROLE := by
  have hsum := alloc_foldl_sum jobs fallback_order
    ((bucket CC.LK jobs).take TOTAL_JOBS_PER_ROLE,
     TOTAL_JOBS_PER_ROLE - ((bucket CC.LK jobs).take TOTAL_JOBS_PER_ROLE).length)
  dsimp only at hsum
  have hlk := List.length_take_le TOTAL_JOBS_PER_ROLE (bucket CC.LK jobs)
  have hgoal : allocate jobs =
      (fallback_order.foldl (allocStep jobs)
        ((bucket CC.LK jobs).take TOTAL_JOBS_PER_ROLE,
         TOTAL_JOBS_PER_ROLE - ((bucket CC.LK jobs).take TOTAL_JOBS_PER_ROLE).length)).1 := rfl
  rw [hgoal]
  omega

theorem allocate_decomp (jobs : List Job) :
    ∃ r1 r2 r3 r4, allocate jobs =
      (((((bucket CC.LK jobs).take TOTAL_JOBS_PER_ROLE
        ++ (bucket CC.US jobs).take r1)
        ++ (bucket CC.IN jobs).take r2)
        ++ (bucket CC.GB jobs).take r3)
        ++ (bucket CC.OTHER jobs).take r4) :=
  let lk := (bucket CC.LK jobs).take TOTAL_JOBS_PER_ROLE
  let r1 := TOTAL_JOBS_PER_ROLE - lk.length
  let a1 := (bucket CC.US jobs).take r1
  let r2 := r1 - a1.length
  let a2 := (bucket CC.IN jobs).take r2
  let r3 := r2 - a2.length
  let a3 := (bucket CC.GB jobs).take r3
  let r4 := r3 - a3.length
  ⟨r1, r2, r3, r4, rfl⟩

theorem bucket_take_mem (c : CC) (n : Nat) (jobs : List Job) (j : Job)
    (h : j ∈ (bucket c jobs).take n) : j ∈ jobs :=
  List.mem_of_mem_filter (List.mem_of_mem_take h)

theorem allocate_mem (jobs : List Job) (j : Job) (h : j ∈ allocate jobs) :
    j ∈ jobs := by
  rcases allocate_decomp jobs with ⟨r1, r2, r3, r4, hdec⟩
  rw [hdec] at h
  rcases List.mem_append.mp h with h1 | h1
  swap
  · exact bucket_take_mem _ _ _ _ h1
  rcases List.mem_append.mp h1 with h2 | h2
  swap
  · exact bucket_take_mem _ _ _ _ h2
  rcases List.mem_append.mp h2 with h3 | h3
  swap
  · exact bucket_take_mem _ _ _ _ h3
  rcases List.mem_append.mp h3 with h4 | h4
  · exact bucket_take_mem _ _ _ _ h4
  · exact bucket_take_mem _ _ _ _ h4

theorem filter_and_prioritize_mem (now : Int) (seen : List (List Char))
    (jobs : List Job) (j : Job)
    (h : j ∈ (filter_and_prioritize_jobs now seen jobs).1) : j ∈ jobs := by
  have h1 : j ∈ ((dedupAux seen jobs).1.filter (fun x => is_job_recent now x)) :=
    allocate_mem _ j h
  exact dedupAux_mem seen jobs j (List.mem_of_mem_filter h1)

/-! ### Sequence-id assignment facts -/

theorem assign_ids_map (tg ky : List Char) :
    ∀ (k : Nat) (jobs : List Job),
      (assign_ids tg ky k jobs).map (fun j => j.job_role_id)
        = (List.range' k jobs.length).map (fun i => tg ++ '_' :: pad3 i)
  | _, [] => rfl
  | k, j :: js => by
    show (tg ++ '_' :: pad3 k) :: (assign_ids tg ky (k + 1) js).map (fun x => x.job_role_id)
        = (List.range' k (js.length + 1)).map (fun i => tg ++ '_' :: pad3 i)
    rw [assign_ids_map tg ky (k + 1) js]
    rfl

/-! ### The claims -/

/-- Claim C1, corrected: in the code the role sequence id is assigned per
fetch call inside scrape_jobs, before any filtering, so within one fetch
the ids are tag underscore 001 through tag underscore n in fetch order
(first conjunct, ids for positions 1 through n with no gaps), and the
scheduler pipeline only ever keeps jobs carrying their fetch-time ids
(second conjunct); the ids of the final output set are therefore not
renumbered after filtering. -/
theorem c1_ids_assigned_at_fetch :
    ∀ (tg ky : List Char) (jobs : List Job) (now : Int)
      (seen : List (List Char)) (fetches : List (((List Char) × (List Char)) × List Job)),
      ((assign_ids tg ky 1 jobs).map (fun j => j.job_role_id)
        = (List.range' 1 jobs.length).map (fun i => tg ++ '_' :: pad3 i)) ∧
      ((role_pipeline now seen fetches).1 ⊆
        (fetches.map (fun f => assign_ids f.1.1 f.1.2 1 f.2)).flatten) := by
  intro tg ky jobs now seen fetches
  refine ⟨assign_ids_map tg ky 1 jobs, ?_⟩
  intro j hj
  exact filter_and_prioritize_mem now seen _ j hj

/-- Claim C1 counterexample: a single fetch returns a stale job then a
fresh one; the pipeline keeps only the fresh job, which still carries the
id DE underscore 002 assigned at fetch time, not DE underscore 001 as the
claim requires for the first retained job. -/
theorem c1_counterexample :
    ((role_pipeline 100 [] [((lit "DE", lit "data_engineer"), [c1_job_old, c1_job_new])]).1.map
        (fun j => j.job_role_id)) = [lit "DE_002"] ∧
    ((role_pipeline 100 [] [((lit "DE", lit "data_engineer"), [c1_job_old, c1_job_new])]).1.map
        (fun j => j.job_role_id)) ≠ [lit "DE_001"] := by
  refine ⟨?_, ?_⟩
  · decide
  · decide

/-- Claim C2 counterexample: on the input with five LK, ten US, ten IN
and ten GB jobs the allocator returns ten US jobs, not the fifteen the
claim asserts — there are only ten US jobs to take. -/
theorem c2_counterexample :
    ((allocate c2_jobs).countP (fun j => job_country j = CC.US)) = 10 ∧
    ((allocate c2_jobs).countP (fun j => job_country j = CC.US)) ≠ 15 := by
  refine ⟨?_, ?_⟩
  · decide
  · decide

/-- Claim C2, corrected: the allocator takes the five LK jobs, exhausts
the whole US bucket of ten (ignoring its configured per-country cap of
seven), and only then takes the last five needed from IN, leaving GB
untouched, each bucket in original order. -/
theorem c2_allocator_fallback :
    allocate c2_jobs = (c2_lk ++ c2_us) ++ c2_in.take 5 := by
  decide

/-- Claim C3: with fetch outcomes where the single primary variation
succeeds, the first United States fallback variation raises and the next
variation succeeds, the error list stays empty — the fallback error is
not recorded — while processing continued past the error (the later
fetch result made it into the output).  A raising primary variation, in
contrast, is recorded. -/
theorem c3_fallback_error_not_recorded :
    (scrape_role_all_locations 0 [] c3_primary c3_fallback []).2.1 = [] ∧
    (scrape_role_all_locations 0 [] c3_primary c3_fallback []).1 = [c3_job] ∧
    (scrape_role_all_locations 0 [] c3_primary_err [] []).2.1
      = [{ role := lit "data engineer", location := lit "Sri Lanka", error := lit "boom" }] := by
  refine ⟨?_, ?_, ?_⟩
  · decide
  · decide
  · decide

/-- Claim C4: the allocator returns at most the per-role total of twenty
jobs; the output decomposes as the primary bucket prefix followed by
take-prefixes of the fallback buckets in priority order, so primary jobs
always precede fallback jobs and each bucket keeps its original order;
the selected primary prefix is a sublist of the input, preserving input
order; and on twenty-five primary jobs the output is exactly the first
twenty with no fallback jobs. -/
theorem c4_allocator_bounds :
    ∀ jobs : List Job,
      (allocate jobs).length ≤ TOTAL_JOBS_PER_ROLE ∧
      (∃ r1 r2 r3 r4, allocate jobs =
        (((((bucket CC.LK jobs).take TOTAL_JOBS_PER_ROLE
          ++ (bucket CC.US jobs).take r1)
          ++ (bucket CC.IN jobs).take r2)
          ++ (bucket CC.GB jobs).take r3)
          ++ (bucket CC.OTHER jobs).take r4)) ∧
      List.Sublist ((bucket CC.LK jobs).take TOTAL_JOBS_PER_ROLE) jobs ∧
      allocate lk25 = lk25.take 20 := by
  intro jobs
  refine ⟨allocate_length_le jobs, allocate_decomp jobs, ?_, ?_⟩
  · exact (List.take_sublist _ _).trans (List.filter_sublist jobs)
  · decide

/-- Claim C5: a job with no posted date or an unparseable one is treated
as recent; a parsed date is recent exactly when its age in days is at
most the twenty-one day threshold, inclusive at twenty-one days and
exclusive at twenty-two. -/
theorem c5_recency :
    ∀ (now d : Int) (j : Job),
      is_job_recent now { j with posted_date := none } = true ∧
      is_job_recent now { j with posted_date := some none } = true ∧
      (is_job_recent now { j with posted_date := some (some d) } = true ↔
        now - d ≤ MAX_POST_AGE_DAYS) ∧
      is_job_recent now { j with posted_date := some (some (now - 21)) } = true ∧
      is_job_recent now { j with posted_date := some (some (now - 22)) } = false := by
  intro now d j
  refine ⟨rfl, rfl, ?_, ?_, ?_⟩
  · simp [is_job_recent]
  · simp only [is_job_recent, MAX_POST_AGE_DAYS, decide_eq_true_eq]
    omega
  · simp only [is_job_recent, MAX_POST_AGE_DAYS]
    rw [decide_eq_false_iff_not]
    omega

/-- Claim C6: deduplication is idempotent — running the pass, from an
empty seen set, over what a first pass retained returns that list
unchanged, because the first pass keeps exactly one job per key. -/
theorem c6_dedup_idempotent :
    ∀ (jobs : List Job),
      (dedupAux [] ((dedupAux [] jobs).1)).1 = (dedupAux [] jobs).1 := by
  intro jobs
  exact dedupAux_of_nodup _ [] (dedupAux_nodup_keys [] jobs)
    (fun j hj => List.not_mem_nil _)

/-- Claim C7: the dedup key is insensitive to letter case and to extra
whitespace — two jobs whose company, title and location have the same
lowercased word sequences, and the same source id, get the same key —
and the key is the normalized fields joined by the underscore separator,
prefixed by the source id exactly when it is non-empty. -/
theorem c7_dedup_key :
    (∀ (j1 j2 : Job),
      wordsOf (lowerL j1.company) = wordsOf (lowerL j2.company) →
      wordsOf (lowerL j1.title) = wordsOf (lowerL j2.title) →
      wordsOf (lowerL j1.location) = wordsOf (lowerL j2.location) →
      j1.job_id = j2.job_id →
      normalize_job_id j1 = normalize_job_id j2) ∧
    (∀ j : Job, normalize_job_id j =
      (if j.job_id = [] then [] else j.job_id ++ ['_'])
        ++ normalizeField j.company ++ '_' :: normalizeField j.title
        ++ '_' :: normalizeField j.location) := by
  constructor
  · intro j1 j2 hc ht hl hid
    have e1 : normalizeField j1.company = normalizeField j2.company := by
      rw [normalizeField_words, normalizeField_words, hc]
    have e2 : normalizeField j1.title = normalizeField j2.title := by
      rw [normalizeField_words, normalizeField_words, ht]
    have e3 : normalizeField j1.location = normalizeField j2.location := by
      rw [normalizeField_words, normalizeField_words, hl]
    unfold normalize_job_id
    rw [hid, e1, e2, e3]
  · intro j
    unfold normalize_job_id
    by_cases h : j.job_id = []
    · simp [h]
    · simp [h]

/-- Witness for claim C7 at two concrete jobs differing only in case and
extra whitespace. -/
theorem c7_dedup_key_witness :
    normalize_job_id c7_job_a = normalize_job_id c7_job_b :=
  c7_dedup_key.1 c7_job_a c7_job_b (by decide) (by decide) (by decide) (by decide)

/-- Claim C8: the classifier is total by construction; Senior Data
Engineer classifies to the data engineer role by case-insensitive
substring match in table order, and keywords matching no variation of
any role get the stable GEN general sentinel. -/
theorem c8_role_classification :
    (get_role_tag_from_keywords (lit "Senior Data Engineer")
      = (lit "DE", lit "data_engineer")) ∧
    (∀ keywords : List Char,
      (∀ r ∈ role_mapping, ∀ v ∈ r.2.1,
        substrOf v (stripL (lowerL keywords)) = false) →
      get_role_tag_from_keywords keywords = (lit "GEN", lit "general")) := by
  constructor
  · decide
  · intro keywords h
    have hfind : role_mapping.find?
        (fun r => r.2.1.any (fun v => substrOf v (stripL (lowerL keywords)))) = none := by
      rw [List.find?_eq_none]
      intro r hr
      intro hany
      rcases List.any_eq_true.mp hany with ⟨v, hv, hsub⟩
      rw [h r hr v hv] at hsub
      exact absurd hsub (by simp)
    dsimp only [get_role_tag_from_keywords]
    rw [hfind]

/-- Witness for claim C8 at keywords matching no role variation. -/
theorem c8_role_classification_witness :
    get_role_tag_from_keywords (lit "plumber") = (lit "GEN", lit "general") :=
  c8_role_classification.2 (lit "plumber") (by decide)

/-- Claim C9: the manual trigger is rejected with the already-running
error, launching nothing, exactly when a scrape is in progress, and is
otherwise accepted with a started acknowledgment that launches the run. -/
theorem c9_run_now :
    run_now true = { status := RunNowStatus.error_already, starts_run := false } ∧
    run_now false = { status := RunNowStatus.started, starts_run := true } :=
  ⟨rfl, rfl⟩

/-- Claim C10: whatever the role outcomes — including an exception that
aborts the role loop into the failed branch — the finally clause leaves
is_scraping false and progress one hundred, so a subsequent manual
trigger is accepted. -/
theorem c10_terminal_status :
    ∀ (roles : List ((List Char) × Except (List Char) (List Job))),
      (scrape_all_roles roles).2.is_scraping = false ∧
      (scrape_all_roles roles).2.progress = 100 ∧
      run_now (scrape_all_roles roles).2.is_scraping
        = { status := RunNowStatus.started, starts_run := true } := by
  intro roles
  exact ⟨rfl, rfl, rfl⟩

end Sched
